import Mathlib

/-!
Verification of the packing engine and atlas serialization of `atlast`
(`src/main.rs`): rectangle geometry, the next-fit linear scan packer, the
compositor, and the destination-index computation of the writer.

Machine integers (`u32`) are modelled as `Nat`; none of the properties below
depends on 32-bit wrap-around, and all concrete inputs are far below `2^32`.
The `while` loop of `Atlas::next_slot` is modelled with explicit fuel
(`none` = the loop has not finished within the given number of iterations).
-/

namespace Atlast

/-- `struct Rect { x, y, width, height }` from `src/main.rs`. -/
structure Rect where
  x : Nat
  y : Nat
  width : Nat
  height : Nat
deriving Repr, DecidableEq, Inhabited

/-- `Rect::contains_point`: closed-box point containment test. -/
def Rect.contains_point (self : Rect) (px py : Nat) : Bool :=
  decide (self.x ≤ px) && decide (self.y ≤ py) &&
    decide (self.x + self.width ≥ px) && decide (self.y + self.height ≥ py)

/-- `Rect::contains`: true iff `self` contains one of `other`'s four corners. -/
def Rect.contains (self other : Rect) : Bool :=
  self.contains_point other.x other.y ||
    self.contains_point (other.x + other.width) other.y ||
    self.contains_point other.x (other.y + other.height) ||
    self.contains_point (other.x + other.width) (other.y + other.height)

/-- `struct Image { name, width, height, data }`; `data` is the RGBA byte
buffer (bytes as `Nat`). -/
structure Image where
  name : String
  width : Nat
  height : Nat
  data : List Nat
deriving Repr, DecidableEq, Inhabited

/-- `Image::area`. -/
def Image.area (img : Image) : Nat := img.width * img.height

/-- The atlas width accumulated by `Atlas::add_image`: starting from `0`,
each image raises it via `if self.width < info.width { self.width = info.width }`,
so it ends as the maximum source image width. -/
def atlasWidth (images : List Image) : Nat :=
  images.foldl (fun w img => if w < img.width then img.width else w) 0

/-- The image sequence after `Atlas::pack`'s
`sort_unstable_by_key(|img| img.area())` followed by `reverse()`.
Rust's `sort_unstable_by_key` sorts ascending by key; for the slice lengths
arising here (fewer than 21 elements) it runs its insertion-sort path, which
performs no swap on equal keys, i.e. is stable.  We model it by a stable
ascending insertion sort, then reverse, exactly as the source does. -/
def sortImages (images : List Image) : List Image :=
  (List.insertionSort (fun a b => a.area ≤ b.area) images).reverse

/-- The loop condition of `Atlas::next_slot`:
`self.records.iter().any(|rect| rect.contains(&pos)) || pos.x+pos.height > self.width`. -/
def collides (records : List Rect) (width : Nat) (pos : Rect) : Bool :=
  records.any (fun rect => rect.contains pos) || decide (pos.x + pos.height > width)

/-- The `while` loop body of `Atlas::next_slot`, with fuel:
while colliding, `if pos.x == self.width-1 { pos.x = 0; pos.y += 1 } else { pos.x += 1 }`. -/
def nextSlotGo (records : List Rect) (width : Nat) : Nat → Rect → Option Rect
  | 0, _ => none
  | fuel + 1, pos =>
    if collides records width pos then
      if pos.x = width - 1 then
        nextSlotGo records width fuel ⟨0, pos.y + 1, pos.width, pos.height⟩
      else
        nextSlotGo records width fuel ⟨pos.x + 1, pos.y, pos.width, pos.height⟩
    else
      some pos

/-- `Atlas::next_slot`: scan from `(0,0)` for the first non-colliding slot. -/
def nextSlot (fuel : Nat) (records : List Rect) (width w h : Nat) : Option Rect :=
  nextSlotGo records width fuel ⟨0, 0, w, h⟩

/-- The loop of `Atlas::pack`: for each image (in sorted order) push
`next_slot(image.width, image.height)` onto the record list. -/
def packGo (fuel width : Nat) : List Image → List Rect → Option (List Rect)
  | [], records => some records
  | img :: rest, records =>
    match nextSlot fuel records width img.width img.height with
    | none => none
    | some r => packGo fuel width rest (records ++ [r])

/-- `Atlas::pack`: sort the images, then place each in turn.  Returns the
placement list (one `Rect` per image, in processing order), or `none` if some
`next_slot` call did not finish within `fuel` iterations. -/
def pack (fuel : Nat) (images : List Image) : Option (List Rect) :=
  packGo fuel (atlasWidth images) (sortImages images) []

/-- The canvas height computed in `Atlas::write`:
`records.iter().map(|rect| rect.y+rect.height).max()` (0 for no records; the
source never evaluates it with an empty record list). -/
def canvasHeight (records : List Rect) : Nat :=
  (records.map (fun rect => rect.y + rect.height)).foldl max 0

/-- The destination byte index computed in `Atlas::write`'s copy loop:
`(((row+rect.y) * width + (col+rect.x))*4) + pix`. -/
def destIndex (width : Nat) (rect : Rect) (row col pix : Nat) : Nat :=
  ((row + rect.y) * width + (col + rect.x)) * 4 + pix

/-- The pixel-copy loop of `Atlas::write`: for each row/col/pix of the image,
`png_buffer[buf_index+pix] = image.data[img_index+pix]`. -/
def blitImage (width : Nat) (buffer : List Nat) (img : Image) (rect : Rect) : List Nat :=
  (List.range img.height).foldl
    (fun buf row =>
      (List.range img.width).foldl
        (fun buf col =>
          (List.range 4).foldl
            (fun buf pix =>
              buf.set (destIndex width rect row col pix)
                (img.data.getD ((row * img.width + col) * 4 + pix) 0))
            buf)
        buf)
    buffer

/-- `Atlas::write`'s compositing: a zero-initialized buffer of
`width * 4 * height` bytes, then every `(image, rect)` pair of
`self.images.iter().zip(self.records.iter())` blitted in order. -/
def composite (width height : Nat) (images : List Image) (records : List Rect) : List Nat :=
  (images.zip records).foldl (fun buf p => blitImage width buf p.1 p.2)
    (List.replicate (width * 4 * height) 0)

/-- Whether every destination index computed by the copy loop of
`Atlas::write` stays below the `width * 4 * height` buffer size. -/
def writesInBounds (width height : Nat) (images : List Image) (records : List Rect) : Bool :=
  (images.zip records).all fun p =>
    (List.range p.1.height).all fun row =>
      (List.range p.1.width).all fun col =>
        (List.range 4).all fun pix =>
          decide (destIndex width p.2 row col pix < width * 4 * height)


/-- The scan position examined at step `n` of `next_slot`'s loop. -/
def posAt (width w h n : Nat) : Rect := ⟨n % width, n / width, w, h⟩

/-- The collision condition exactly as claim C4 words it. -/
def specCollides (records : List Rect) (width : Nat) (pos : Rect) : Prop :=
  (∃ r ∈ records, r.contains pos = true) ∨ pos.x + pos.height > width

/-- The advance rule exactly as claim C4 words it: while colliding, if
`x = width - 1` reset `x` to 0 and increment `y`, else increment `x`. -/
def specStep (width : Nat) (pos : Rect) : Rect :=
  if pos.x = width - 1 then ⟨0, pos.y + 1, pos.width, pos.height⟩
  else ⟨pos.x + 1, pos.y, pos.width, pos.height⟩

/-- A buffer after a sequence of `set` writes (index, value), applied in order. -/
def applyWrites (buffer : List Nat) (ws : List (Nat × Nat)) : List Nat :=
  ws.foldl (fun buf iv => buf.set iv.1 iv.2) buffer

/-- The write sequence performed by `blitImage`, in loop order. -/
def blitWrites (width : Nat) (img : Image) (rect : Rect) : List (Nat × Nat) :=
  (List.range img.height).flatMap fun row =>
    (List.range img.width).flatMap fun col =>
      (List.range 4).map fun pix =>
        (destIndex width rect row col pix,
          img.data.getD ((row * img.width + col) * 4 + pix) 0)

/-- The set of canvas pixels written when an image of size `w × h` is blitted at
`rect`'s offset (a half-open footprint). -/
def covered (rect : Rect) (w h px py : Nat) : Prop :=
  rect.x ≤ px ∧ px < rect.x + w ∧ rect.y ≤ py ∧ py < rect.y + h

instance coveredDecidable (rect : Rect) (w h px py : Nat) :
    Decidable (covered rect w h px py) :=
  inferInstanceAs
    (Decidable (rect.x ≤ px ∧ px < rect.x + w ∧ rect.y ≤ py ∧ py < rect.y + h))

/-- Modelled from the spec's words, for comparison in claim C5: a stable sort by
descending pixel area, ties keeping original input order. -/
def specOrderImages (images : List Image) : List Image :=
  List.insertionSort (fun a b => b.area ≤ a.area) images

/-- The packing pipeline run on the spec-claimed processing order instead of the
source's, for comparison in claim C5. -/
def specPack (fuel : Nat) (images : List Image) : Option (List Rect) :=
  packGo fuel (atlasWidth images) (specOrderImages images) []

/-- The processing sequence of `sortImages`, with every image tagged by its
position in the input list: the enumerated input, insertion-sorted by ascending
area (comparing only the image component), then reversed — mirroring
`sortImages` step for step. -/
def sortEnum (images : List Image) : List (Nat × Image) :=
  (List.insertionSort (fun a b => a.2.area ≤ b.2.area) images.enum).reverse

/-- Concrete input for claim C1: four images with pairwise distinct areas. -/
def c1Images : List Image :=
  [⟨"a", 3, 3, []⟩, ⟨"b", 7, 1, []⟩, ⟨"c", 2, 3, []⟩, ⟨"d", 4, 1, []⟩]

/-- The placements the packer produces for `c1Images`. -/
def c1Records : List Rect :=
  [⟨0, 0, 3, 3⟩, ⟨4, 0, 7, 1⟩, ⟨4, 2, 2, 3⟩, ⟨3, 4, 4, 1⟩]

/-- Concrete input for claim C2: a 2×7 and an 8×1 image. -/
def c2Images : List Image := [⟨"a", 2, 7, []⟩, ⟨"b", 8, 1, []⟩]

/-- The placements the packer produces for `c2Images`; the second sticks out past
the canvas width 8. -/
def c2Records : List Rect := [⟨0, 0, 2, 7⟩, ⟨3, 0, 8, 1⟩]

/-- Concrete input for claim C3: a single image taller than it is wide. -/
def c3Image : Image := ⟨"a", 1, 2, []⟩

/-- Concrete tied-area inputs for claim C5 (both have area 4). -/
def c5ImageA : Image := ⟨"a", 1, 4, []⟩

/-- Second tied-area input for claim C5. -/
def c5ImageB : Image := ⟨"b", 4, 1, []⟩

/-- Concrete input for claim C6: a 2×7 image of 1-bytes and an 8×1 image of
2-bytes. -/
def c6Images : List Image :=
  [⟨"a", 2, 7, List.replicate 56 1⟩, ⟨"b", 8, 1, List.replicate 32 2⟩]

/-- The placements the packer produces for `c6Images`. -/
def c6Records : List Rect := [⟨0, 0, 2, 7⟩, ⟨3, 0, 8, 1⟩]

/-- Concrete input for claim C7: four images whose packing puts a stuck-out
placement on the bottom row of the canvas. -/
def c7Images : List Image :=
  [⟨"c", 8, 2, []⟩, ⟨"d", 3, 4, []⟩, ⟨"e", 5, 2, []⟩, ⟨"b", 8, 1, []⟩]

/-- The placements the packer produces for `c7Images`. -/
def c7Records : List Rect :=
  [⟨0, 0, 8, 2⟩, ⟨0, 3, 3, 4⟩, ⟨4, 3, 5, 2⟩, ⟨4, 6, 8, 1⟩]

/-- Small well-behaved input used by several witnesses. -/
def w1Images : List Image := [⟨"a", 2, 2, []⟩, ⟨"b", 1, 1, []⟩]

/-- The placements the packer produces for `w1Images`. -/
def w1Records : List Rect := [⟨0, 0, 2, 2⟩, ⟨0, 3, 1, 1⟩]

/-- Two 1×1 images with known pixel bytes, for the compositor witness. -/
def wPixImages : List Image :=
  [⟨"a", 1, 1, [5, 6, 7, 8]⟩, ⟨"b", 1, 1, [9, 10, 11, 12]⟩]

/-- Disjoint in-bounds placements for `wPixImages` on a 1×2 canvas. -/
def wPixRecords : List Rect := [⟨0, 0, 1, 1⟩, ⟨0, 1, 1, 1⟩]

theorem posAt_succ_wrap {width : Nat} (hW : 1 ≤ width) {n : Nat}
    (h : n % width = width - 1) (w hh : Nat) :
    posAt width w hh (n + 1) = ⟨0, n / width + 1, w, hh⟩ := by
  have hdiv : n + 1 = width * (n / width + 1) := by
    calc n + 1 = width * (n / width) + n % width + 1 := by rw [Nat.div_add_mod]
      _ = width * (n / width) + (width - 1) + 1 := by rw [h]
      _ = width * (n / width) + width := by omega
      _ = width * (n / width + 1) := by ring
  unfold posAt
  rw [hdiv, Nat.mul_mod_right, Nat.mul_div_cancel_left _ (by omega : 0 < width)]

theorem posAt_succ_step {width : Nat} (hW : 1 ≤ width) {n : Nat}
    (h : ¬ n % width = width - 1) (w hh : Nat) :
    posAt width w hh (n + 1) = ⟨n % width + 1, n / width, w, hh⟩ := by
  have hmod : n % width < width := Nat.mod_lt _ (by omega)
  have hlt : n % width + 1 < width := by omega
  have hmod1 : (n + 1) % width = n % width + 1 := by
    rw [Nat.add_mod]
    rw [Nat.mod_eq_of_lt (by omega : 1 < width)]
    exact Nat.mod_eq_of_lt hlt
  have hdvd : ¬ width ∣ (n + 1) := by
    intro hd
    have := Nat.mod_eq_zero_of_dvd hd
    omega
  unfold posAt
  rw [hmod1, Nat.succ_div_of_not_dvd hdvd]

theorem nextSlotGo_succ_posAt {records : List Rect} {width : Nat} (hW : 1 ≤ width)
    {w h n : Nat} (fuel : Nat)
    (hc : collides records width (posAt width w h n) = true) :
    nextSlotGo records width (fuel + 1) (posAt width w h n) =
      nextSlotGo records width fuel (posAt width w h (n + 1)) := by
  rw [nextSlotGo, hc]
  simp only [if_true]
  by_cases hx : n % width = width - 1
  · rw [posAt_succ_wrap hW hx w h,
      if_pos (show (posAt width w h n).x = width - 1 from hx)]
    rfl
  · rw [posAt_succ_step hW hx w h,
      if_neg (show ¬ (posAt width w h n).x = width - 1 from hx)]
    rfl

theorem nextSlotGo_some_inv {records : List Rect} {width : Nat} (hW : 1 ≤ width)
    {w h : Nat} :
    ∀ fuel n r, nextSlotGo records width fuel (posAt width w h n) = some r →
      ∃ k, n ≤ k ∧ r = posAt width w h k ∧
        collides records width (posAt width w h k) = false ∧
        ∀ j, n ≤ j → j < k → collides records width (posAt width w h j) = true := by
  intro fuel
  induction fuel with
  | zero => intro n r hr; simp [nextSlotGo] at hr
  | succ f ih =>
    intro n r hr
    by_cases hc : collides records width (posAt width w h n) = true
    · rw [nextSlotGo_succ_posAt hW f hc] at hr
      obtain ⟨k, hk1, hk2, hk3, hk4⟩ := ih (n + 1) r hr
      refine ⟨k, by omega, hk2, hk3, ?_⟩
      intro j hj1 hj2
      rcases Nat.eq_or_lt_of_le hj1 with hj | hj
      · exact hj ▸ hc
      · exact hk4 j hj hj2
    · have hc' : collides records width (posAt width w h n) = false := by
        revert hc; cases collides records width (posAt width w h n) <;> simp
      rw [nextSlotGo, hc'] at hr
      simp only [if_false, Bool.false_eq_true] at hr
      refine ⟨n, Nat.le_refl n, ?_, hc', ?_⟩
      · cases hr; rfl
      · intro j hj1 hj2; omega

theorem nextSlotGo_some_of {records : List Rect} {width : Nat} (hW : 1 ≤ width)
    {w h : Nat} :
    ∀ fuel n k, n ≤ k → k < n + fuel →
      collides records width (posAt width w h k) = false →
      (∀ j, n ≤ j → j < k → collides records width (posAt width w h j) = true) →
      nextSlotGo records width fuel (posAt width w h n) = some (posAt width w h k) := by
  intro fuel
  induction fuel with
  | zero => intro n k h1 h2 _ _; omega
  | succ f ih =>
    intro n k h1 h2 hfree hblock
    rcases Nat.eq_or_lt_of_le h1 with he | hlt
    · subst he
      rw [nextSlotGo, hfree]
      simp
    · have hc : collides records width (posAt width w h n) = true :=
        hblock n (Nat.le_refl n) hlt
      rw [nextSlotGo_succ_posAt hW f hc]
      exact ih (n + 1) k hlt (by omega) hfree (fun j hj1 hj2 => hblock j (by omega) hj2)

theorem nextSlotGo_some_of_free {records : List Rect} {width : Nat} (hW : 1 ≤ width)
    {w h : Nat} :
    ∀ fuel n, (∃ k, n ≤ k ∧ k < n + fuel ∧
        collides records width (posAt width w h k) = false) →
      ∃ r, nextSlotGo records width fuel (posAt width w h n) = some r := by
  intro fuel
  induction fuel with
  | zero => intro n ⟨k, h1, h2, _⟩; omega
  | succ f ih =>
    intro n ⟨k, h1, h2, hfree⟩
    by_cases hc : collides records width (posAt width w h n) = true
    · rw [nextSlotGo_succ_posAt hW f hc]
      have hk : n ≠ k := by rintro rfl; rw [hc] at hfree; cases hfree
      exact ih (n + 1) ⟨k, by omega, by omega, hfree⟩
    · have hc' : collides records width (posAt width w h n) = false := by
        revert hc; cases collides records width (posAt width w h n) <;> simp
      rw [nextSlotGo, hc']
      simp

theorem nextSlotGo_mono {records : List Rect} {width : Nat} :
    ∀ fuel pos r, nextSlotGo records width fuel pos = some r →
      nextSlotGo records width (fuel + 1) pos = some r := by
  intro fuel
  induction fuel with
  | zero => intro pos r hr; simp [nextSlotGo] at hr
  | succ f ih =>
    intro pos r hr
    rw [nextSlotGo] at hr
    rw [nextSlotGo]
    by_cases hc : collides records width pos = true
    · rw [hc] at hr
      rw [hc]
      simp only [if_true] at hr ⊢
      by_cases hx : pos.x = width - 1
      · rw [if_pos hx] at hr ⊢; exact ih _ r hr
      · rw [if_neg hx] at hr ⊢; exact ih _ r hr
    · have hc' : collides records width pos = false := by
        revert hc; cases collides records width pos <;> simp
      rw [hc'] at hr
      rw [hc']
      simpa using hr

theorem nextSlotGo_mono_le {records : List Rect} {width : Nat}
    {fuel fuel' : Nat} (hle : fuel ≤ fuel') {pos : Rect} {r : Rect}
    (hr : nextSlotGo records width fuel pos = some r) :
    nextSlotGo records width fuel' pos = some r := by
  induction fuel', hle using Nat.le_induction with
  | base => exact hr
  | succ m _ ih => exact nextSlotGo_mono m pos r ih

theorem nextSlotGo_collides_result {records : List Rect} {width : Nat} :
    ∀ fuel pos r, nextSlotGo records width fuel pos = some r →
      collides records width r = false := by
  intro fuel
  induction fuel with
  | zero => intro pos r hr; simp [nextSlotGo] at hr
  | succ f ih =>
    intro pos r hr
    rw [nextSlotGo] at hr
    by_cases hc : collides records width pos = true
    · rw [hc] at hr
      simp only [if_true] at hr
      by_cases hx : pos.x = width - 1
      · rw [if_pos hx] at hr; exact ih _ r hr
      · rw [if_neg hx] at hr; exact ih _ r hr
    · have hc' : collides records width pos = false := by
        revert hc; cases collides records width pos <;> simp
      rw [hc'] at hr
      simp only [if_false, Bool.false_eq_true] at hr
      cases hr
      exact hc'

theorem nextSlotGo_dims {records : List Rect} {width : Nat} :
    ∀ fuel pos r, nextSlotGo records width fuel pos = some r →
      r.width = pos.width ∧ r.height = pos.height := by
  intro fuel
  induction fuel with
  | zero => intro pos r hr; simp [nextSlotGo] at hr
  | succ f ih =>
    intro pos r hr
    rw [nextSlotGo] at hr
    by_cases hc : collides records width pos = true
    · rw [hc] at hr
      simp only [if_true] at hr
      by_cases hx : pos.x = width - 1
      · rw [if_pos hx] at hr; simpa using ih _ r hr
      · rw [if_neg hx] at hr; simpa using ih _ r hr
    · have hc' : collides records width pos = false := by
        revert hc; cases collides records width pos <;> simp
      rw [hc'] at hr
      simp only [if_false, Bool.false_eq_true] at hr
      cases hr
      exact ⟨rfl, rfl⟩

theorem foldl_max_init_le : ∀ (l : List Nat) (init : Nat), init ≤ l.foldl max init := by
  intro l
  induction l with
  | nil => intro init; exact Nat.le_refl init
  | cons b t ih =>
    intro init
    calc init ≤ max init b := Nat.le_max_left init b
      _ ≤ t.foldl max (max init b) := ih (max init b)

theorem le_foldl_max {a : Nat} : ∀ (l : List Nat) (init : Nat), a ∈ l → a ≤ l.foldl max init := by
  intro l
  induction l with
  | nil => intro init ha; cases ha
  | cons b t ih =>
    intro init ha
    rcases List.mem_cons.1 ha with rfl | ha
    · calc a ≤ max init a := Nat.le_max_right init a
        _ ≤ t.foldl max (max init a) := foldl_max_init_le t _
    · exact ih (max init b) ha

theorem foldl_max_mem : ∀ (l : List Nat) (init : Nat),
    l.foldl max init = init ∨ l.foldl max init ∈ l := by
  intro l
  induction l with
  | nil => intro init; exact Or.inl rfl
  | cons b t ih =>
    intro init
    rw [List.foldl_cons]
    rcases ih (max init b) with h | h
    · rw [h]
      rcases Nat.le_total init b with hb | hb
      · right
        rw [Nat.max_eq_right hb]
        exact List.mem_cons_self b t
      · left
        exact Nat.max_eq_left hb
    · right
      exact List.mem_cons_of_mem b h

theorem bottom_le_canvasHeight {r : Rect} {records : List Rect} (h : r ∈ records) :
    r.y + r.height ≤ canvasHeight records :=
  le_foldl_max _ 0 (List.mem_map.2 ⟨r, h, rfl⟩)

theorem canvasHeight_attained {records : List Rect} (h : records ≠ []) :
    ∃ r ∈ records, r.y + r.height = canvasHeight records := by
  rcases foldl_max_mem (records.map fun rect => rect.y + rect.height) 0 with hm | hm
  · cases records with
    | nil => exact absurd rfl h
    | cons a t =>
      refine ⟨a, List.mem_cons_self a t, ?_⟩
      have h1 : a.y + a.height ≤ canvasHeight (a :: t) :=
        bottom_le_canvasHeight (List.mem_cons_self a t)
      have h2 : canvasHeight (a :: t) = 0 := hm
      omega
  · obtain ⟨r, hr, he⟩ := List.mem_map.1 hm
    exact ⟨r, hr, he⟩

theorem collides_far {records : List Rect} {width w h : Nat} (hW : 1 ≤ width)
    (hh : h ≤ width) :
    collides records width (posAt width w h (width * (canvasHeight records + 1))) = false := by
  have hx : width * (canvasHeight records + 1) % width = 0 := Nat.mul_mod_right _ _
  have hy : width * (canvasHeight records + 1) / width = canvasHeight records + 1 :=
    Nat.mul_div_cancel_left _ (by omega)
  unfold posAt
  rw [hx, hy]
  unfold collides
  simp only [Bool.or_eq_false_iff, List.any_eq_false, decide_eq_false_iff_not]
  constructor
  · intro r hr
    have hb : r.y + r.height ≤ canvasHeight records := bottom_le_canvasHeight hr
    intro hcon
    simp only [Rect.contains, Rect.contains_point, Bool.or_eq_true, Bool.and_eq_true,
      decide_eq_true_eq] at hcon
    omega
  · omega

theorem nextSlot_eq_posAt (fuel : Nat) (records : List Rect) (width w h : Nat) :
    nextSlot fuel records width w h = nextSlotGo records width fuel (posAt width w h 0) := by
  unfold nextSlot posAt
  rw [Nat.zero_mod, Nat.zero_div]

theorem nextSlot_some {records : List Rect} {width w h : Nat} (hW : 1 ≤ width)
    (hh : h ≤ width) :
    ∃ r, nextSlot (width * (canvasHeight records + 1) + 1) records width w h = some r := by
  rw [nextSlot_eq_posAt]
  exact nextSlotGo_some_of_free hW _ 0
    ⟨width * (canvasHeight records + 1), Nat.zero_le _, by omega, collides_far hW hh⟩

theorem packGo_mono {width : Nat} :
    ∀ (imgs : List Image) (records recs : List Rect) (fuel fuel' : Nat),
      fuel ≤ fuel' → packGo fuel width imgs records = some recs →
      packGo fuel' width imgs records = some recs := by
  intro imgs
  induction imgs with
  | nil => intro records recs fuel fuel' _ h; exact h
  | cons img rest ih =>
    intro records recs fuel fuel' hle h
    rw [packGo] at h
    rw [packGo]
    cases hslot : nextSlot fuel records width img.width img.height with
    | none => rw [hslot] at h; cases h
    | some r =>
      rw [hslot] at h
      have hslot' : nextSlot fuel' records width img.width img.height = some r :=
        nextSlotGo_mono_le hle hslot
      rw [hslot']
      exact ih _ recs fuel fuel' hle h

theorem packGo_some {width : Nat} (hW : 1 ≤ width) :
    ∀ (imgs : List Image), (∀ img ∈ imgs, img.height ≤ width) →
      ∀ records : List Rect, ∃ fuel recs, packGo fuel width imgs records = some recs := by
  intro imgs
  induction imgs with
  | nil => intro _ records; exact ⟨0, records, rfl⟩
  | cons img rest ih =>
    intro hh records
    obtain ⟨r, hr⟩ := @nextSlot_some records width img.width img.height hW
      (hh img (List.mem_cons_self img rest))
    obtain ⟨fuel₂, recs, h₂⟩ :=
      ih (fun i hi => hh i (List.mem_cons_of_mem img hi)) (records ++ [r])
    refine ⟨max (width * (canvasHeight records + 1) + 1) fuel₂, recs, ?_⟩
    rw [packGo]
    have hr' : nextSlot (max (width * (canvasHeight records + 1) + 1) fuel₂) records width
        img.width img.height = some r :=
      nextSlotGo_mono_le (Nat.le_max_left _ _) hr
    rw [hr']
    exact packGo_mono rest _ recs fuel₂ _ (Nat.le_max_right _ _) h₂

theorem sortImages_mem {images : List Image} {img : Image} (h : img ∈ sortImages images) :
    img ∈ images := by
  unfold sortImages at h
  rw [List.mem_reverse, List.mem_insertionSort] at h
  exact h

/-- If every image's height is at most the canvas width, `pack` finishes with
some fuel. -/
theorem pack_terminates (images : List Image) (hW : 1 ≤ atlasWidth images)
    (hh : ∀ img ∈ images, img.height ≤ atlasWidth images) :
    ∃ fuel recs, pack fuel images = some recs := by
  obtain ⟨fuel, recs, h⟩ := packGo_some hW (sortImages images)
    (fun img hm => hh img (sortImages_mem hm)) []
  exact ⟨fuel, recs, h⟩

theorem collides_false_elim {records : List Rect} {width : Nat} {pos : Rect}
    (h : collides records width pos = false) :
    (∀ r ∈ records, r.contains pos = false) ∧ pos.x + pos.height ≤ width := by
  unfold collides at h
  simp only [Bool.or_eq_false_iff, List.any_eq_false, decide_eq_false_iff_not,
    Nat.not_lt] at h
  obtain ⟨h1, h2⟩ := h
  refine ⟨fun r hr => ?_, h2⟩
  have := h1 r hr
  revert this
  cases r.contains pos <;> simp

theorem nextSlot_accepted {fuel : Nat} {records : List Rect} {width w h : Nat} {r : Rect}
    (hr : nextSlot fuel records width w h = some r) :
    (∀ s ∈ records, s.contains r = false) ∧ r.x + r.height ≤ width ∧
      r.width = w ∧ r.height = h := by
  have h1 := nextSlotGo_collides_result fuel _ r hr
  have h2 := nextSlotGo_dims fuel _ r hr
  obtain ⟨h3, h4⟩ := collides_false_elim h1
  exact ⟨h3, h4, h2.1, h2.2⟩

theorem packGo_pairwise {width : Nat} :
    ∀ (imgs : List Image) (records recs : List Rect) (fuel : Nat),
      packGo fuel width imgs records = some recs →
      records.Pairwise (fun a b => a.contains b = false) →
      recs.Pairwise (fun a b => a.contains b = false) := by
  intro imgs
  induction imgs with
  | nil =>
    intro records recs fuel hp hw
    rw [packGo] at hp
    cases hp
    exact hw
  | cons img rest ih =>
    intro records recs fuel hp hw
    rw [packGo] at hp
    cases hslot : nextSlot fuel records width img.width img.height with
    | none => rw [hslot] at hp; cases hp
    | some r =>
      rw [hslot] at hp
      refine ih _ recs fuel hp ?_
      rw [List.pairwise_append]
      refine ⟨hw, List.pairwise_singleton _ r, ?_⟩
      intro a ha b hb
      rw [List.mem_singleton] at hb
      subst hb
      exact (nextSlot_accepted hslot).1 a ha

theorem packGo_bound {width : Nat} :
    ∀ (imgs : List Image) (records recs : List Rect) (fuel : Nat),
      packGo fuel width imgs records = some recs →
      (∀ r ∈ records, r.x + r.height ≤ width) →
      ∀ r ∈ recs, r.x + r.height ≤ width := by
  intro imgs
  induction imgs with
  | nil =>
    intro records recs fuel hp hw
    rw [packGo] at hp
    cases hp
    exact hw
  | cons img rest ih =>
    intro records recs fuel hp hw
    rw [packGo] at hp
    cases hslot : nextSlot fuel records width img.width img.height with
    | none => rw [hslot] at hp; cases hp
    | some r =>
      rw [hslot] at hp
      refine ih _ recs fuel hp ?_
      intro s hs
      rcases List.mem_append.1 hs with hs | hs
      · exact hw s hs
      · rw [List.mem_singleton] at hs
        subst hs
        exact (nextSlot_accepted hslot).2.1

theorem packGo_dims {width : Nat} :
    ∀ (imgs : List Image) (records recs : List Rect) (fuel : Nat),
      packGo fuel width imgs records = some recs →
      ∃ added : List Rect, recs = records ++ added ∧ added.length = imgs.length ∧
        ∀ p ∈ imgs.zip added, p.2.width = p.1.width ∧ p.2.height = p.1.height := by
  intro imgs
  induction imgs with
  | nil =>
    intro records recs fuel hp
    rw [packGo] at hp
    cases hp
    exact ⟨[], by simp, rfl, by simp⟩
  | cons img rest ih =>
    intro records recs fuel hp
    rw [packGo] at hp
    cases hslot : nextSlot fuel records width img.width img.height with
    | none => rw [hslot] at hp; cases hp
    | some r =>
      rw [hslot] at hp
      obtain ⟨added, he, hl, hd⟩ := ih _ recs fuel hp
      refine ⟨r :: added, by simpa using he, by simpa using hl, ?_⟩
      intro p hp'
      rcases List.mem_cons.1 hp' with rfl | hp'
      · have := (nextSlot_accepted hslot).2.2
        exact ⟨this.1, this.2⟩
      · exact hd p hp'

theorem pack_pairwise {fuel : Nat} {images : List Image} {recs : List Rect}
    (h : pack fuel images = some recs) :
    recs.Pairwise (fun a b => a.contains b = false) :=
  packGo_pairwise (sortImages images) [] recs fuel h (List.Pairwise.nil)

theorem pack_bound {fuel : Nat} {images : List Image} {recs : List Rect}
    (h : pack fuel images = some recs) :
    ∀ r ∈ recs, r.x + r.height ≤ atlasWidth images :=
  packGo_bound (sortImages images) [] recs fuel h (by simp)

theorem pack_dims {fuel : Nat} {images : List Image} {recs : List Rect}
    (h : pack fuel images = some recs) :
    recs.length = images.length ∧
      ∀ p ∈ (sortImages images).zip recs, p.2.width = p.1.width ∧ p.2.height = p.1.height := by
  obtain ⟨added, he, hl, hd⟩ := packGo_dims (sortImages images) [] recs fuel h
  rw [List.nil_append] at he
  subst he
  constructor
  · rw [hl]
    unfold sortImages
    rw [List.length_reverse]
    exact (List.perm_insertionSort _ images).length_eq
  · exact hd

theorem sortImages_perm (images : List Image) : (sortImages images).Perm images :=
  (List.reverse_perm _).trans (List.perm_insertionSort _ images)

theorem sortImages_sorted (images : List Image) :
    List.Sorted (fun a b => b.area ≤ a.area) (sortImages images) := by
  haveI : IsTotal Image (fun a b => a.area ≤ b.area) := ⟨fun a b => Nat.le_total _ _⟩
  haveI : IsTrans Image (fun a b => a.area ≤ b.area) := ⟨fun a b c => Nat.le_trans⟩
  have h := List.sorted_insertionSort (fun a b : Image => a.area ≤ b.area) images
  unfold sortImages
  unfold List.Sorted at h ⊢
  rw [List.pairwise_reverse]
  exact h

theorem collides_iff_spec (records : List Rect) (width : Nat) (pos : Rect) :
    collides records width pos = true ↔ specCollides records width pos := by
  unfold collides specCollides
  simp [List.any_eq_true]

theorem nextSlotGo_succ_step (records : List Rect) (width fuel : Nat) (pos : Rect)
    (hc : collides records width pos = true) :
    nextSlotGo records width (fuel + 1) pos =
      nextSlotGo records width fuel (specStep width pos) := by
  rw [nextSlotGo, hc]
  simp only [if_true]
  unfold specStep
  by_cases hx : pos.x = width - 1
  · rw [if_pos hx, if_pos hx]
  · rw [if_neg hx, if_neg hx]

theorem nextSlotGo_succ_done (records : List Rect) (width fuel : Nat) (pos : Rect)
    (hc : collides records width pos = false) :
    nextSlotGo records width (fuel + 1) pos = some pos := by
  rw [nextSlotGo, hc]
  simp

theorem specStep_posAt {width : Nat} (hW : 1 ≤ width) (w h n : Nat) :
    specStep width (posAt width w h n) = posAt width w h (n + 1) := by
  unfold specStep
  by_cases hx : n % width = width - 1
  · rw [if_pos (show (posAt width w h n).x = width - 1 from hx),
      posAt_succ_wrap hW hx w h]
    rfl
  · rw [if_neg (show ¬ (posAt width w h n).x = width - 1 from hx),
      posAt_succ_step hW hx w h]
    rfl

theorem foldl_flatMap {α β γ : Type} (f : β → α → β) (g : γ → List α) :
    ∀ (l : List γ) (init : β),
      (l.flatMap g).foldl f init = l.foldl (fun acc x => (g x).foldl f acc) init := by
  intro l
  induction l with
  | nil => intro init; rfl
  | cons a t ih =>
    intro init
    rw [List.flatMap_cons, List.foldl_append, List.foldl_cons, ih]

theorem blitImage_eq_applyWrites (width : Nat) (buffer : List Nat) (img : Image)
    (rect : Rect) :
    blitImage width buffer img rect = applyWrites buffer (blitWrites width img rect) := by
  unfold blitImage blitWrites applyWrites
  simp only [foldl_flatMap, List.foldl_map]

theorem applyWrites_length : ∀ (ws : List (Nat × Nat)) (buffer : List Nat),
    (applyWrites buffer ws).length = buffer.length := by
  intro ws
  induction ws with
  | nil => intro buffer; rfl
  | cons iv ws ih =>
    intro buffer
    show (applyWrites (buffer.set iv.1 iv.2) ws).length = buffer.length
    rw [ih, List.length_set]

theorem getD_applyWrites_not_mem :
    ∀ (ws : List (Nat × Nat)) (buffer : List Nat) (i d : Nat),
      (∀ iv ∈ ws, iv.1 ≠ i) →
      (applyWrites buffer ws).getD i d = buffer.getD i d := by
  intro ws
  induction ws with
  | nil => intro buffer i d _; rfl
  | cons jv ws ih =>
    intro buffer i d hne
    show (applyWrites (buffer.set jv.1 jv.2) ws).getD i d = buffer.getD i d
    rw [ih _ i d (fun iv hiv => hne iv (List.mem_cons_of_mem jv hiv))]
    simp only [List.getD_eq_getElem?_getD]
    rw [List.getElem?_set_ne (hne jv (List.mem_cons_self jv ws))]

theorem getD_applyWrites_mem :
    ∀ (ws : List (Nat × Nat)) (buffer : List Nat) (i v d : Nat),
      (i, v) ∈ ws → (∀ iv ∈ ws, iv.1 = i → iv.2 = v) → i < buffer.length →
      (applyWrites buffer ws).getD i d = v := by
  intro ws
  induction ws with
  | nil => intro buffer i v d hm _ _; cases hm
  | cons jv ws ih =>
    intro buffer i v d hm huniq hlen
    show (applyWrites (buffer.set jv.1 jv.2) ws).getD i d = v
    by_cases hrest : ∃ iv ∈ ws, iv.1 = i
    · obtain ⟨iv, hiv, hiv1⟩ := hrest
      have hval : iv.2 = v := huniq iv (List.mem_cons_of_mem jv hiv) hiv1
      have hmem : (i, v) ∈ ws := by
        have : iv = (i, v) := by
          cases iv
          simp only at hiv1 hval
          rw [hiv1, hval]
        rw [← this]
        exact hiv
      exact ih _ i v d hmem
        (fun iv' hiv' => huniq iv' (List.mem_cons_of_mem jv hiv'))
        (by rw [List.length_set]; exact hlen)
    · push_neg at hrest
      rw [getD_applyWrites_not_mem ws _ i d hrest]
      rcases List.mem_cons.1 hm with he | hm'
      · have h1 : jv.1 = i := by rw [← he]
        have h2 : jv.2 = v := by rw [← he]
        simp only [List.getD_eq_getElem?_getD]
        rw [h1, h2, List.getElem?_set_self hlen]
        rfl
      · exact absurd (hrest (i, v) hm') (by simp)

theorem decode_unique {W a b q q' : Nat} (hW : 0 < W) (ha : a < W) (hb : b < W)
    (h : q * W + a = q' * W + b) : q = q' ∧ a = b := by
  have e1 : (q * W + a) % W = a := by
    rw [Nat.add_comm, Nat.add_mul_mod_self_right]
    exact Nat.mod_eq_of_lt ha
  have e2 : (q' * W + b) % W = b := by
    rw [Nat.add_comm, Nat.add_mul_mod_self_right]
    exact Nat.mod_eq_of_lt hb
  have hab : a = b := by rw [← e1, ← e2, h]
  refine ⟨?_, hab⟩
  have hq : q * W = q' * W := by omega
  exact Nat.eq_of_mul_eq_mul_right hW hq

theorem destIndex_inj {width : Nat} {rect : Rect} {row col pix row' col' pix' : Nat}
    (hpix : pix < 4) (hpix' : pix' < 4)
    (hcol : col + rect.x < width) (hcol' : col' + rect.x < width)
    (h : destIndex width rect row col pix = destIndex width rect row' col' pix') :
    row = row' ∧ col = col' ∧ pix = pix' := by
  unfold destIndex at h
  have hW : 0 < width := by omega
  have h1 : (row + rect.y) * width + (col + rect.x) =
      (row' + rect.y) * width + (col' + rect.x) ∧ pix = pix' := by
    constructor <;> omega
  obtain ⟨h2, h3⟩ := h1
  obtain ⟨h4, h5⟩ := decode_unique hW hcol hcol' h2
  exact ⟨by omega, by omega, h3⟩

theorem destIndex_lt {width height : Nat} {rect : Rect} {w h row col pix : Nat}
    (hrow : row < h) (hcol : col < w) (hpix : pix < 4)
    (hx : rect.x + w ≤ width) (hy : rect.y + h ≤ height) :
    destIndex width rect row col pix < width * 4 * height := by
  unfold destIndex
  have hA : (row + rect.y) * width + (col + rect.x) < height * width := by
    calc (row + rect.y) * width + (col + rect.x)
        < (row + rect.y) * width + width := by omega
      _ = (row + rect.y + 1) * width := by ring
      _ ≤ height * width := Nat.mul_le_mul_right width (by omega)
  calc ((row + rect.y) * width + (col + rect.x)) * 4 + pix
      < (((row + rect.y) * width + (col + rect.x)) + 1) * 4 := by omega
    _ ≤ height * width * 4 := Nat.mul_le_mul_right 4 (by omega)
    _ = width * 4 * height := by ring

theorem getD_blitImage_touched {width height : Nat} {buffer : List Nat} {img : Image}
    {rect : Rect} {row col pix : Nat}
    (hrow : row < img.height) (hcol : col < img.width) (hpix : pix < 4)
    (hx : rect.x + img.width ≤ width) (hy : rect.y + img.height ≤ height)
    (hlen : buffer.length = width * 4 * height) :
    (blitImage width buffer img rect).getD (destIndex width rect row col pix) 0 =
      img.data.getD ((row * img.width + col) * 4 + pix) 0 := by
  rw [blitImage_eq_applyWrites]
  apply getD_applyWrites_mem
  · exact List.mem_flatMap.2 ⟨row, List.mem_range.2 hrow,
      List.mem_flatMap.2 ⟨col, List.mem_range.2 hcol,
        List.mem_map.2 ⟨pix, List.mem_range.2 hpix, rfl⟩⟩⟩
  · intro iv hiv hidx
    obtain ⟨row', hrow', hiv2⟩ := List.mem_flatMap.1 hiv
    obtain ⟨col', hcol', hiv3⟩ := List.mem_flatMap.1 hiv2
    obtain ⟨pix', hpix', hiv4⟩ := List.mem_map.1 hiv3
    rw [List.mem_range] at hrow' hcol' hpix'
    subst hiv4
    simp only at hidx ⊢
    obtain ⟨e1, e2, e3⟩ := destIndex_inj hpix' hpix (by omega) (by omega) hidx
    rw [e1, e2, e3]
  · rw [hlen]
    exact destIndex_lt hrow hcol hpix hx hy

theorem getD_blitImage_untouched {width : Nat} {buffer : List Nat} {img : Image}
    {rect : Rect} {px py pix : Nat}
    (hpx : px < width) (hpix : pix < 4)
    (hx : rect.x + img.width ≤ width)
    (hnc : ¬ covered rect img.width img.height px py) :
    (blitImage width buffer img rect).getD ((py * width + px) * 4 + pix) 0 =
      buffer.getD ((py * width + px) * 4 + pix) 0 := by
  rw [blitImage_eq_applyWrites]
  apply getD_applyWrites_not_mem
  intro iv hiv
  obtain ⟨row', hrow', hiv2⟩ := List.mem_flatMap.1 hiv
  obtain ⟨col', hcol', hiv3⟩ := List.mem_flatMap.1 hiv2
  obtain ⟨pix', hpix', hiv4⟩ := List.mem_map.1 hiv3
  rw [List.mem_range] at hrow' hcol' hpix'
  subst hiv4
  simp only
  intro hidx
  unfold destIndex at hidx
  have hW : 0 < width := by omega
  have h1 : (row' + rect.y) * width + (col' + rect.x) = py * width + px ∧ pix' = pix := by
    constructor <;> omega
  obtain ⟨h2, h3⟩ := h1
  obtain ⟨h4, h5⟩ := decode_unique hW (by omega) hpx h2
  exact hnc ⟨by omega, by omega, by omega, by omega⟩

theorem blit_fold_correct {width height : Nat} :
    ∀ (pairs : List (Image × Rect)) (buffer : List Nat),
      buffer.length = width * 4 * height →
      (∀ p ∈ pairs, p.2.x + p.1.width ≤ width ∧ p.2.y + p.1.height ≤ height) →
      pairs.Pairwise (fun p q => ∀ px py,
        ¬(covered p.2 p.1.width p.1.height px py ∧ covered q.2 q.1.width q.1.height px py)) →
      ((∀ p ∈ pairs, ∀ row col pix, row < p.1.height → col < p.1.width → pix < 4 →
          (pairs.foldl (fun buf q => blitImage width buf q.1 q.2) buffer).getD
              (destIndex width p.2 row col pix) 0 =
            p.1.data.getD ((row * p.1.width + col) * 4 + pix) 0) ∧
        (∀ px py pix, px < width → pix < 4 →
          (∀ p ∈ pairs, ¬ covered p.2 p.1.width p.1.height px py) →
          (pairs.foldl (fun buf q => blitImage width buf q.1 q.2) buffer).getD
              ((py * width + px) * 4 + pix) 0 =
            buffer.getD ((py * width + px) * 4 + pix) 0)) := by
  intro pairs
  induction pairs with
  | nil =>
    intro buffer _ _ _
    exact ⟨fun p hp => absurd hp (List.not_mem_nil p), fun _ _ _ _ _ _ => rfl⟩
  | cons p rest ih =>
    intro buffer hlen hcond hdisj
    have hp := hcond p (List.mem_cons_self p rest)
    have hlen' : (blitImage width buffer p.1 p.2).length = width * 4 * height := by
      rw [blitImage_eq_applyWrites, applyWrites_length]
      exact hlen
    have hcond' : ∀ q ∈ rest, q.2.x + q.1.width ≤ width ∧ q.2.y + q.1.height ≤ height :=
      fun q hq => hcond q (List.mem_cons_of_mem p hq)
    have hdisj' := (List.pairwise_cons.1 hdisj).2
    have hhead := (List.pairwise_cons.1 hdisj).1
    obtain ⟨ihA, ihB⟩ := ih (blitImage width buffer p.1 p.2) hlen' hcond' hdisj'
    rw [List.foldl_cons]
    constructor
    · intro q hq row col pix hrow hcol hpix
      rcases List.mem_cons.1 hq with rfl | hq'
      · have hcov : covered q.2 q.1.width q.1.height (col + q.2.x) (row + q.2.y) :=
          ⟨by omega, by omega, by omega, by omega⟩
        have hothers : ∀ q' ∈ rest,
            ¬ covered q'.2 q'.1.width q'.1.height (col + q.2.x) (row + q.2.y) := by
          intro q' hq' hc'
          exact hhead q' hq' (col + q.2.x) (row + q.2.y) ⟨hcov, hc'⟩
        have hidx : destIndex width q.2 row col pix =
            ((row + q.2.y) * width + (col + q.2.x)) * 4 + pix := rfl
        rw [hidx]
        rw [ihB (col + q.2.x) (row + q.2.y) pix (by omega) hpix hothers]
        rw [← hidx]
        exact getD_blitImage_touched hrow hcol hpix hp.1 hp.2 hlen
      · exact ihA q hq' row col pix hrow hcol hpix
    · intro px py pix hpx hpix hnone
      rw [ihB px py pix hpx hpix
        (fun q hq => hnone q (List.mem_cons_of_mem p hq))]
      exact getD_blitImage_untouched hpx hpix hp.1
        (hnone p (List.mem_cons_self p rest))

theorem getD_replicate_zero (n i : Nat) : (List.replicate n (0 : Nat)).getD i 0 = 0 := by
  rw [List.getD_eq_getElem?_getD, List.getElem?_replicate]
  split <;> rfl

/-- Claim C6, amended: PROVIDED every placement stays inside the canvas
(`x + width ≤ canvas width`, `y + height ≤ canvas height`, which the packer
does not guarantee) and the placements' pixel footprints are pairwise
disjoint, every pixel of every source image appears with all 4 RGBA channels
unchanged at its placement offset (destination `(rect.x+col, rect.y+row)` for
source-local `(col, row)`) in the composited buffer, and every canvas pixel
covered by no placement is zero. -/
theorem c6_amended (width height : Nat) (images : List Image) (records : List Rect)
    (hcond : ∀ p ∈ images.zip records,
      p.2.width = p.1.width ∧ p.2.height = p.1.height ∧
        p.2.x + p.2.width ≤ width ∧ p.2.y + p.2.height ≤ height)
    (hdisj : (images.zip records).Pairwise (fun p q => ∀ px py,
      ¬(covered p.2 p.1.width p.1.height px py ∧ covered q.2 q.1.width q.1.height px py))) :
    (∀ p ∈ images.zip records, ∀ row col pix,
        row < p.1.height → col < p.1.width → pix < 4 →
        (composite width height images records).getD (destIndex width p.2 row col pix) 0 =
          p.1.data.getD ((row * p.1.width + col) * 4 + pix) 0) ∧
    (∀ px py pix, px < width → pix < 4 →
        (∀ p ∈ images.zip records, ¬ covered p.2 p.1.width p.1.height px py) →
        (composite width height images records).getD ((py * width + px) * 4 + pix) 0 = 0) := by
  have hcond' : ∀ p ∈ images.zip records,
      p.2.x + p.1.width ≤ width ∧ p.2.y + p.1.height ≤ height := by
    intro p hp
    obtain ⟨h1, h2, h3, h4⟩ := hcond p hp
    omega
  obtain ⟨hA, hB⟩ := blit_fold_correct (images.zip records)
    (List.replicate (width * 4 * height) 0) (List.length_replicate _ _) hcond' hdisj
  refine ⟨hA, ?_⟩
  intro px py pix hpx hpix hnone
  rw [show composite width height images records =
    (images.zip records).foldl (fun buf q => blitImage width buf q.1 q.2)
      (List.replicate (width * 4 * height) 0) from rfl]
  rw [hB px py pix hpx hpix hnone]
  exact getD_replicate_zero _ _

theorem writesInBounds_of_bounds (width height : Nat) (images : List Image)
    (records : List Rect)
    (hcond : ∀ p ∈ images.zip records,
      p.2.width = p.1.width ∧ p.2.height = p.1.height ∧
        p.2.x + p.2.width ≤ width ∧ p.2.y + p.2.height ≤ height) :
    writesInBounds width height images records = true := by
  unfold writesInBounds
  rw [List.all_eq_true]
  intro p hp
  rw [List.all_eq_true]
  intro row hrow
  rw [List.all_eq_true]
  intro col hcol
  rw [List.all_eq_true]
  intro pix hpix
  rw [List.mem_range] at hrow hcol hpix
  obtain ⟨h1, h2, h3, h4⟩ := hcond p hp
  rw [decide_eq_true_eq]
  exact destIndex_lt hrow hcol hpix (by omega) (by omega)


theorem orderedInsert_map_snd (a : Nat × Image) :
    ∀ l : List (Nat × Image),
      (List.orderedInsert (fun x y => x.2.area ≤ y.2.area) a l).map Prod.snd =
        List.orderedInsert (fun x y => x.area ≤ y.area) a.2 (l.map Prod.snd) := by
  intro l
  induction l with
  | nil => rfl
  | cons b t ih =>
    show (if a.2.area ≤ b.2.area then a :: b :: t
        else b :: List.orderedInsert _ a t).map Prod.snd =
      if a.2.area ≤ b.2.area then a.2 :: b.2 :: t.map Prod.snd
        else b.2 :: List.orderedInsert _ a.2 (t.map Prod.snd)
    by_cases hr : a.2.area ≤ b.2.area
    · rw [if_pos hr, if_pos hr]
      rfl
    · rw [if_neg hr, if_neg hr, List.map_cons, ih]

theorem insertionSort_map_snd :
    ∀ l : List (Nat × Image),
      (List.insertionSort (fun x y => x.2.area ≤ y.2.area) l).map Prod.snd =
        List.insertionSort (fun x y => x.area ≤ y.area) (l.map Prod.snd) := by
  intro l
  induction l with
  | nil => rfl
  | cons a t ih =>
    show (List.orderedInsert _ a (List.insertionSort _ t)).map Prod.snd =
      List.orderedInsert _ a.2 (List.insertionSort _ (t.map Prod.snd))
    rw [orderedInsert_map_snd, ih]

theorem sortEnum_map_snd (images : List Image) :
    (sortEnum images).map Prod.snd = sortImages images := by
  unfold sortEnum sortImages
  rw [List.map_reverse, insertionSort_map_snd]
  show ((images.enum.map Prod.snd).insertionSort _).reverse = _
  rw [show images.enum.map Prod.snd = images from List.enumFrom_map_snd 0 images]

theorem sortEnum_perm (images : List Image) :
    (sortEnum images).Perm images.enum :=
  (List.reverse_perm _).trans (List.perm_insertionSort _ _)

theorem le_fst_of_mem_enumFrom :
    ∀ (l : List Image) (n : Nat) (b : Nat × Image), b ∈ List.enumFrom n l → n ≤ b.1 := by
  intro l
  induction l with
  | nil => intro n b hb; cases hb
  | cons x t ih =>
    intro n b hb
    rw [List.enumFrom_cons, List.mem_cons] at hb
    rcases hb with rfl | hb
    · exact Nat.le_refl n
    · exact Nat.le_of_succ_le (ih (n + 1) b hb)

theorem enumFrom_fst_pairwise :
    ∀ (l : List Image) (n : Nat),
      (List.enumFrom n l).Pairwise (fun a b => a.1 < b.1) := by
  intro l
  induction l with
  | nil => intro n; exact List.Pairwise.nil
  | cons x t ih =>
    intro n
    rw [List.enumFrom_cons]
    exact List.Pairwise.cons
      (fun b hb => Nat.lt_of_lt_of_le (Nat.lt_succ_self n) (le_fst_of_mem_enumFrom t (n + 1) b hb))
      (ih (n + 1))

theorem orderedInsert_tie_pairwise (a : Nat × Image) :
    ∀ s : List (Nat × Image),
      s.Pairwise (fun x y => x.2.area = y.2.area → x.1 < y.1) →
      (∀ b ∈ s, a.1 < b.1) →
      (List.orderedInsert (fun x y => x.2.area ≤ y.2.area) a s).Pairwise
        (fun x y => x.2.area = y.2.area → x.1 < y.1) := by
  intro s
  induction s with
  | nil => intro _ _; exact List.pairwise_singleton _ a
  | cons b t ih =>
    intro hP hlt
    show (if a.2.area ≤ b.2.area then a :: b :: t
        else b :: List.orderedInsert _ a t).Pairwise _
    by_cases hr : a.2.area ≤ b.2.area
    · rw [if_pos hr]
      exact List.Pairwise.cons (fun x hx _ => hlt x hx) hP
    · rw [if_neg hr]
      refine List.Pairwise.cons ?_
        (ih (List.pairwise_cons.1 hP).2 (fun c hc => hlt c (List.mem_cons_of_mem b hc)))
      intro x hx
      rw [List.mem_orderedInsert] at hx
      rcases hx with rfl | hx
      · intro harea
        omega
      · exact (List.pairwise_cons.1 hP).1 x hx

theorem insertionSort_tie_pairwise :
    ∀ l : List (Nat × Image),
      l.Pairwise (fun x y => x.1 < y.1) →
      (List.insertionSort (fun x y => x.2.area ≤ y.2.area) l).Pairwise
        (fun x y => x.2.area = y.2.area → x.1 < y.1) := by
  intro l
  induction l with
  | nil => intro _; exact List.Pairwise.nil
  | cons a t ih =>
    intro hP
    show (List.orderedInsert _ a (List.insertionSort _ t)).Pairwise _
    apply orderedInsert_tie_pairwise
    · exact ih (List.pairwise_cons.1 hP).2
    · intro b hb
      rw [List.mem_insertionSort] at hb
      exact (List.pairwise_cons.1 hP).1 b hb

theorem sortEnum_ties_reversed (images : List Image) :
    (sortEnum images).Pairwise (fun a b => a.2.area = b.2.area → b.1 < a.1) := by
  unfold sortEnum
  rw [List.pairwise_reverse]
  have h := insertionSort_tie_pairwise images.enum (enumFrom_fst_pairwise images 0)
  exact h.imp (fun hab harea => hab harea.symm)

theorem nextSlotGo_tall_none (fuel : Nat) :
    ∀ y, nextSlotGo [] 1 fuel ⟨0, y, 1, 2⟩ = none := by
  induction fuel with
  | zero => intro y; rfl
  | succ n ih =>
    intro y
    show nextSlotGo [] 1 (n + 1) ⟨0, y, 1, 2⟩ = none
    rw [nextSlotGo]
    have hc : collides [] 1 ⟨0, y, 1, 2⟩ = true := rfl
    rw [hc]
    simp only [if_true]
    exact ih (y + 1)

/-- Claim C1, counterexample: on the four-image input `c1Images` the packer
produces `c1Records`, and the fourth placement's rectangle contains a corner
of the third placement's rectangle — two distinct placements violating the
corner-containment relation the claim asserts for all pairs. -/
theorem c1_counterexample :
    pack 200 c1Images = some c1Records ∧
    (c1Records.getD 3 default).contains (c1Records.getD 2 default) = true := by
  constructor <;> decide

/-- Claim C1, amended: among the placements produced by `pack`, no earlier
placement's rectangle contains a corner of a later placement's rectangle; the
reverse direction (a later rectangle containing a corner of an earlier one)
can fail, as `c1_counterexample` shows. -/
theorem c1_amended (fuel : Nat) (images : List Image) (recs : List Rect)
    (h : pack fuel images = some recs) :
    recs.Pairwise (fun a b => a.contains b = false) :=
  pack_pairwise h

/-- Witness for `c1_amended` at the concrete input `w1Images`. -/
theorem c1_amended_witness :
    w1Records.Pairwise (fun a b => a.contains b = false) :=
  c1_amended 100 w1Images w1Records (by decide)

/-- Claim C2, counterexample: on `c2Images` the packer succeeds with
`c2Records`, whose second placement has `x + width = 11 > 8 = canvas width`
(the bound check uses the height, so a wide-short image slips past it). -/
theorem c2_counterexample :
    pack 100 c2Images = some c2Records ∧
    atlasWidth c2Images <
      (c2Records.getD 1 default).x + (c2Records.getD 1 default).width := by
  constructor <;> decide

/-- Claim C2, amended: every placement satisfies `x + height ≤ canvas.width`
(the source's bound check uses the height, not the width), and the canvas
height computed afterwards is the maximum of `rect.y + rect.height` over the
placements: an upper bound on all of them that is attained by one of them. -/
theorem c2_amended (fuel : Nat) (images : List Image) (recs : List Rect)
    (h : pack fuel images = some recs) :
    (∀ r ∈ recs, r.x + r.height ≤ atlasWidth images) ∧
    (∀ r ∈ recs, r.y + r.height ≤ canvasHeight recs) ∧
    (recs ≠ [] → ∃ r ∈ recs, r.y + r.height = canvasHeight recs) :=
  ⟨pack_bound h, fun _ hr => bottom_le_canvasHeight hr, canvasHeight_attained⟩

/-- Witness for `c2_amended` at the concrete input `w1Images`. -/
theorem c2_amended_witness :
    (∀ r ∈ w1Records, r.x + r.height ≤ atlasWidth w1Images) ∧
    (∀ r ∈ w1Records, r.y + r.height ≤ canvasHeight w1Records) ∧
    (w1Records ≠ [] → ∃ r ∈ w1Records, r.y + r.height = canvasHeight w1Records) :=
  c2_amended 100 w1Images w1Records (by decide)

/-- Claim C3, counterexample: for the single 1×2 image `c3Image` the canvas
width is 1, every candidate fails the `x + height > width` bound, so the scan
never accepts a position: `pack` completes for no amount of fuel — the run
does not proceed to completion. -/
theorem c3_counterexample :
    ¬ ∃ fuel recs, pack fuel [c3Image] = some recs := by
  rintro ⟨fuel, recs, h⟩
  have hs : sortImages [c3Image] = [c3Image] := rfl
  have hw : atlasWidth [c3Image] = 1 := rfl
  unfold pack at h
  rw [hs, hw] at h
  unfold packGo at h
  unfold nextSlot at h
  simp only [c3Image] at h
  rw [nextSlotGo_tall_none fuel 0] at h
  simp at h

/-- Claim C3, amended: every `next_slot` call made during `pack` terminates —
the scan finds and accepts a non-colliding position — provided every image's
height is at most the canvas width (the maximum source image width); the run
then proceeds to completion. -/
theorem c3_amended (images : List Image) (hW : 1 ≤ atlasWidth images)
    (hh : ∀ img ∈ images, img.height ≤ atlasWidth images) :
    ∃ fuel recs, pack fuel images = some recs :=
  pack_terminates images hW hh

/-- Witness for `c3_amended` at the concrete input `w1Images`. -/
theorem c3_amended_witness :
    (1 ≤ atlasWidth w1Images) ∧ (∃ fuel recs, pack fuel w1Images = some recs) :=
  ⟨by decide, c3_amended w1Images (by decide) (by decide)⟩

/-- Claim C4: `next_slot` implements exactly the specified scan: the code's
collision test agrees with the claimed condition (some already-placed
rectangle contains a corner of the candidate, OR `x + height > width` — the
bound uses the image's height); while colliding, the position advances by the
claimed rule (reset to the next row at `x = width - 1`, else `x + 1`), which
traverses the positions `posAt 0, posAt 1, …` starting at `(0,0)`; a
non-colliding position is accepted at once; and an accepted slot is the first
position in scan order that does not collide. -/
theorem c4_scan (records : List Rect) (width w h fuel : Nat) (r : Rect)
    (hW : 1 ≤ width) (hr : nextSlot fuel records width w h = some r) :
    (∀ pos, collides records width pos = true ↔ specCollides records width pos) ∧
    (∀ pos f, collides records width pos = true →
      nextSlotGo records width (f + 1) pos =
        nextSlotGo records width f (specStep width pos)) ∧
    (∀ pos f, collides records width pos = false →
      nextSlotGo records width (f + 1) pos = some pos) ∧
    posAt width w h 0 = ⟨0, 0, w, h⟩ ∧
    (∀ n, specStep width (posAt width w h n) = posAt width w h (n + 1)) ∧
    (∃ k, r = posAt width w h k ∧ ¬ specCollides records width (posAt width w h k) ∧
      ∀ j < k, specCollides records width (posAt width w h j)) := by
  refine ⟨collides_iff_spec records width,
    fun pos f hc => nextSlotGo_succ_step records width f pos hc,
    fun pos f hc => nextSlotGo_succ_done records width f pos hc,
    by unfold posAt; rw [Nat.zero_mod, Nat.zero_div],
    fun n => specStep_posAt hW w h n, ?_⟩
  rw [nextSlot_eq_posAt] at hr
  obtain ⟨k, _, hk2, hk3, hk4⟩ := nextSlotGo_some_inv hW fuel 0 r hr
  refine ⟨k, hk2, ?_, ?_⟩
  · rw [← collides_iff_spec]
    simp [hk3]
  · intro j hj
    rw [← collides_iff_spec]
    exact hk4 j (Nat.zero_le j) hj

/-- Witness for `c4_scan` on the empty record list with canvas width 1. -/
theorem c4_scan_witness :
    ∃ k, (⟨0, 0, 1, 1⟩ : Rect) = posAt 1 1 1 k ∧
      ¬ specCollides [] 1 (posAt 1 1 1 k) ∧
      ∀ j < k, specCollides [] 1 (posAt 1 1 1 j) :=
  (c4_scan [] 1 1 1 1 ⟨0, 0, 1, 1⟩ (by decide) (by decide)).2.2.2.2.2

/-- Claim C5, counterexample: on two images of equal area (`c5ImageA` 1×4 and
`c5ImageB` 4×1) the source's ascending sort followed by `reverse()` processes
ties in reversed input order, so the processing sequence differs from the
claimed stable descending order, and the output placements differ too. -/
theorem c5_counterexample :
    sortImages [c5ImageA, c5ImageB] ≠ specOrderImages [c5ImageA, c5ImageB] ∧
    pack 100 [c5ImageA, c5ImageB] ≠ specPack 100 [c5ImageA, c5ImageB] := by
  constructor <;> decide

/-- Claim C5, amended: `pack` processes a permutation of the input images
sorted by descending pixel area, with equal-area ties in REVERSED input order
(the source reverses a stable ascending sort), and outputs exactly one
rectangle per processed image, in that order.  Tie reversal is stated on
`sortEnum`, the same processing sequence with every image tagged by its input
position: it projects onto `sortImages`, it is a permutation of the
enumerated input, and whenever two of its entries have equal areas the later
entry carries the SMALLER input position.  The output has one rectangle per
image, the i-th rectangle carrying the i-th processed image's dimensions. -/
theorem c5_amended (images : List Image) (fuel : Nat) (recs : List Rect)
    (h : pack fuel images = some recs) :
    (sortImages images).Perm images ∧
    List.Sorted (fun a b => b.area ≤ a.area) (sortImages images) ∧
    (sortEnum images).map Prod.snd = sortImages images ∧
    (sortEnum images).Perm images.enum ∧
    (sortEnum images).Pairwise (fun a b => a.2.area = b.2.area → b.1 < a.1) ∧
    recs.length = images.length ∧
    ∀ p ∈ (sortImages images).zip recs,
      p.2.width = p.1.width ∧ p.2.height = p.1.height :=
  ⟨sortImages_perm images, sortImages_sorted images, sortEnum_map_snd images,
    sortEnum_perm images, sortEnum_ties_reversed images, (pack_dims h).1,
    (pack_dims h).2⟩

/-- Witness for `c5_amended` at the concrete input `w1Images`. -/
theorem c5_amended_witness :
    (sortImages w1Images).Perm w1Images ∧
    List.Sorted (fun a b => b.area ≤ a.area) (sortImages w1Images) ∧
    (sortEnum w1Images).map Prod.snd = sortImages w1Images ∧
    (sortEnum w1Images).Perm w1Images.enum ∧
    (sortEnum w1Images).Pairwise (fun a b => a.2.area = b.2.area → b.1 < a.1) ∧
    w1Records.length = w1Images.length ∧
    ∀ p ∈ (sortImages w1Images).zip w1Records,
      p.2.width = p.1.width ∧ p.2.height = p.1.height :=
  c5_amended w1Images 100 w1Records (by decide)

/-- Claim C6, counterexample: on `c6Images` the packer produces `c6Records`
(whose second placement sticks out past the canvas width 8); in the composited
buffer the first image's pixel at source-local `(col 0, row 1)` does not hold
its source value — the stuck-out image's writes wrap to the next row and
clobber it — and the canvas pixel `(2, 1)`, covered by no placement, is
nonzero. -/
theorem c6_counterexample :
    pack 100 c6Images = some c6Records ∧
    ((sortImages c6Images).getD 0 default, c6Records.getD 0 default) ∈
      (sortImages c6Images).zip c6Records ∧
    (composite (atlasWidth c6Images) (canvasHeight c6Records) (sortImages c6Images)
        c6Records).getD
        (destIndex (atlasWidth c6Images) (c6Records.getD 0 default) 1 0 0) 0 ≠
      ((sortImages c6Images).getD 0 default).data.getD ((1 * 2 + 0) * 4 + 0) 0 ∧
    (∀ p ∈ (sortImages c6Images).zip c6Records,
      ¬ covered p.2 p.1.width p.1.height 2 1) ∧
    (composite (atlasWidth c6Images) (canvasHeight c6Records) (sortImages c6Images)
        c6Records).getD ((1 * atlasWidth c6Images + 2) * 4 + 0) 0 ≠ 0 := by
  refine ⟨by decide, by decide, by decide, by decide, by decide⟩

/-- Witness for `c6_amended`: on a 1×2 canvas with two disjoint in-bounds 1×1
placements, the composited buffer holds the first image's first byte at its
placement offset. -/
theorem c6_amended_witness :
    (composite 1 2 wPixImages wPixRecords).getD (destIndex 1 ⟨0, 0, 1, 1⟩ 0 0 0) 0 = 5 := by
  have hzip : wPixImages.zip wPixRecords =
      [(⟨"a", 1, 1, [5, 6, 7, 8]⟩, ⟨0, 0, 1, 1⟩), (⟨"b", 1, 1, [9, 10, 11, 12]⟩, ⟨0, 1, 1, 1⟩)] := rfl
  have hdisj : (wPixImages.zip wPixRecords).Pairwise (fun p q => ∀ px py,
      ¬(covered p.2 p.1.width p.1.height px py ∧ covered q.2 q.1.width q.1.height px py)) := by
    rw [hzip]
    refine List.Pairwise.cons ?_ (List.pairwise_singleton _ _)
    intro q hq px py hcc
    rw [List.mem_singleton] at hq
    subst hq
    simp only [covered] at hcc
    omega
  exact (c6_amended 1 2 wPixImages wPixRecords (by decide) hdisj).1
    (⟨"a", 1, 1, [5, 6, 7, 8]⟩, ⟨0, 0, 1, 1⟩) (by decide) 0 0 0
    (by decide) (by decide) (by decide)

/-- Claim C7, counterexample: on `c7Images` the packer produces `c7Records`;
the last placement sticks out past the canvas width AND reaches the bottom
canvas row, so the copy loop computes a destination index past the end of the
`width * 4 * height` buffer (`Vec` indexing then panics in the source). -/
theorem c7_counterexample :
    pack 200 c7Images = some c7Records ∧
    writesInBounds (atlasWidth c7Images) (canvasHeight c7Records)
      (sortImages c7Images) c7Records = false := by
  constructor <;> decide

/-- Claim C7, amended: PROVIDED every placement satisfies
`x + width ≤ canvas width` (which the packer does not guarantee), every
destination index computed by the copy loop stays below the buffer size, with
the canvas height defined as `max(rect.y + rect.height)`. -/
theorem c7_amended (width : Nat) (images : List Image) (records : List Rect)
    (hcond : ∀ p ∈ images.zip records,
      p.2.width = p.1.width ∧ p.2.height = p.1.height ∧ p.2.x + p.2.width ≤ width) :
    writesInBounds width (canvasHeight records) images records = true := by
  apply writesInBounds_of_bounds
  intro p hp
  obtain ⟨h1, h2, h3⟩ := hcond p hp
  exact ⟨h1, h2, h3, bottom_le_canvasHeight (List.of_mem_zip hp).2⟩

/-- Witness for `c7_amended` at the concrete input `w1Images`. -/
theorem c7_amended_witness :
    writesInBounds 2 (canvasHeight w1Records) w1Images w1Records = true :=
  c7_amended 2 w1Images w1Records (by decide)

/-- Claim C9: `Rect::contains` returns true iff at least one of the other
rectangle's four corners (top-left, top-right, bottom-left, bottom-right)
lies within self's closed bounding box; in particular it returns false when
the other rectangle strictly contains self without any of its own corners
inside self. -/
theorem c9_contains_iff (s o : Rect) :
    (s.contains o = true ↔
      ((s.x ≤ o.x ∧ o.x ≤ s.x + s.width ∧ s.y ≤ o.y ∧ o.y ≤ s.y + s.height) ∨
        (s.x ≤ o.x + o.width ∧ o.x + o.width ≤ s.x + s.width ∧
          s.y ≤ o.y ∧ o.y ≤ s.y + s.height) ∨
        (s.x ≤ o.x ∧ o.x ≤ s.x + s.width ∧
          s.y ≤ o.y + o.height ∧ o.y + o.height ≤ s.y + s.height) ∨
        (s.x ≤ o.x + o.width ∧ o.x + o.width ≤ s.x + s.width ∧
          s.y ≤ o.y + o.height ∧ o.y + o.height ≤ s.y + s.height))) ∧
    ((o.x < s.x ∧ o.y < s.y ∧ s.x + s.width < o.x + o.width ∧
        s.y + s.height < o.y + o.height) →
      s.contains o = false) := by
  have hiff : s.contains o = true ↔
      ((s.x ≤ o.x ∧ o.x ≤ s.x + s.width ∧ s.y ≤ o.y ∧ o.y ≤ s.y + s.height) ∨
        (s.x ≤ o.x + o.width ∧ o.x + o.width ≤ s.x + s.width ∧
          s.y ≤ o.y ∧ o.y ≤ s.y + s.height) ∨
        (s.x ≤ o.x ∧ o.x ≤ s.x + s.width ∧
          s.y ≤ o.y + o.height ∧ o.y + o.height ≤ s.y + s.height) ∨
        (s.x ≤ o.x + o.width ∧ o.x + o.width ≤ s.x + s.width ∧
          s.y ≤ o.y + o.height ∧ o.y + o.height ≤ s.y + s.height)) := by
    unfold Rect.contains Rect.contains_point
    simp only [Bool.or_eq_true, Bool.and_eq_true, decide_eq_true_eq, ge_iff_le]
    tauto
  refine ⟨hiff, ?_⟩
  intro hstrict
  cases hc : s.contains o with
  | false => rfl
  | true =>
    have hd := hiff.1 hc
    rcases hstrict with ⟨h1, h2, h3, h4⟩
    rcases hd with h | h | h | h <;> omega

/-- Witness for `c9_contains_iff`: the 5×5 rectangle at (1,1) strictly
contains the 2×2 rectangle at (2,2), and the corner test misses it. -/
theorem c9_contains_iff_witness :
    Rect.contains ⟨2, 2, 2, 2⟩ ⟨1, 1, 5, 5⟩ = false :=
  (c9_contains_iff ⟨2, 2, 2, 2⟩ ⟨1, 1, 5, 5⟩).2 (by decide)

/-- Claim C10: the collision check during packing is one-directional — for
every accepted placement, no previously placed rectangle contains (in the
closed corner sense) any corner of the newly accepted rectangle, on every
input; while the reverse direction is not prevented: there is an input on
which a later placement's rectangle contains a corner of an earlier one. -/
theorem c10_one_directional :
    (∀ fuel images recs, pack fuel images = some recs →
      ∀ i j, i < j → j < recs.length →
        (recs.getD i default).contains (recs.getD j default) = false) ∧
    (∃ fuel images recs i j, pack fuel images = some recs ∧ i < j ∧
      j < recs.length ∧ (recs.getD j default).contains (recs.getD i default) = true) := by
  constructor
  · intro fuel images recs h i j hij hj
    have hp := pack_pairwise h
    rw [List.pairwise_iff_get] at hp
    have hi : i < recs.length := by omega
    have hg := hp ⟨i, hi⟩ ⟨j, hj⟩ (Fin.mk_lt_mk.mpr hij)
    have e1 : recs.getD i default = recs.get ⟨i, hi⟩ := by
      rw [List.getD_eq_getElem?_getD, List.getElem?_eq_getElem hi]
      rfl
    have e2 : recs.getD j default = recs.get ⟨j, hj⟩ := by
      rw [List.getD_eq_getElem?_getD, List.getElem?_eq_getElem hj]
      rfl
    rw [e1, e2]
    exact hg
  · exact ⟨200, c1Images, c1Records, 2, 3, by decide, by omega, by decide, by decide⟩

end Atlast
